import Mathlib

/-!
Shallow embedding of the scene-graph traversal core:
the read-only index-aware preorder iterator (iter_with_index.rs)
and the mutable predicate-pruning preorder iterator (iter_mut_predicate.rs),
together with the arena/tree data model they operate on.

The generational arena (thunderdome) is modelled as a list of optional
node records addressed by a plain natural-number slot; a stale or removed
slot is a position holding none (or out of range).  Panicking operations
of the source (indexing a missing slot, unwrap on a failed lookup,
get2_mut on equal indices) are modelled as error results of an explicit
fault type, and the pull-based iterators are modelled as fuel-indexed
run functions that consume one unit of fuel per popped stack frame.
-/

namespace Scenegraph

/-- A slot index into the generational arena.  Thunderdome's versioned
Index is modelled as a bare natural number; staleness of a handle is
modelled by the arena lookup returning none for it. -/
abbrev Slot := Nat

/-- Head and tail of a node's child linked list (the source's Children
struct; the tail supports O(1) append by the mutation API and is unused
by the traversal core). -/
structure Children where
  first : Slot
  last : Slot
deriving DecidableEq, Repr

/-- An arena-resident non-root tree member: its value, the range of its
child list, and its place in its parent's sibling chain. -/
structure Node (T : Type) where
  value : T
  children : Option Children
  next_sibling : Option Slot
deriving DecidableEq, Repr

/-- The identifier of a node: the distinguished root (stored inline in
the container) or a branch node addressed by an arena slot (the source's
NodeIndex enum). -/
inductive NodeIndex where
  | Root
  | Branch (idx : Slot)
deriving DecidableEq, Repr

/-- The scene-graph container: the root value, the root's child range,
and the arena holding every other node. -/
structure SceneGraph (T : Type) where
  root : T
  root_children : Option Children
  arena : List (Option (Node T))

variable {T : Type}

/-- Arena lookup: thunderdome's get, none for a slot that does not
resolve. -/
def SceneGraph.get (sg : SceneGraph T) (i : Slot) : Option (Node T) :=
  sg.arena.getD i none

/-- A fault of an iterator run: running out of fuel (an artifact of the
fuel-indexed embedding, never reached with enough fuel), a panicking
arena access on a missing slot (the source's bracket indexing or unwrap),
or get2_mut called with two equal indices (the source's fatal
invariant-violation branch). -/
inductive IterFault where
  | fuelOut
  | missingSlot
  | equalIndices
deriving DecidableEq, Repr

/-! ## Read iterator (SceneGraphIterWithIndex) -/

/-- A stack frame of the read iterator: the identifier of the pending
node and the node record itself (the source frame holds a shared
reference into the arena; with the container immutable for the whole
iteration this is the same as holding the record). -/
structure ReadStackState (T : Type) where
  current_child_index : NodeIndex
  current_child : Node T
deriving DecidableEq, Repr

/-- Push one frame for slot i, resolving the record as the source's
arena bracket indexing does; a missing slot is that indexing's panic. -/
def readPush (sg : SceneGraph T) (i : Slot) (s : List (ReadStackState T)) :
    Except IterFault (List (ReadStackState T)) :=
  match sg.get i with
  | some n => .ok (⟨NodeIndex.Branch i, n⟩ :: s)
  | none => .error .missingSlot

/-- SceneGraphIterWithIndex::new: seed the stack with the start node's
first child, if any.  The root_index argument is carried but unused,
exactly as in the source. -/
def readNew (sg : SceneGraph T) (root_index : NodeIndex)
    (root_children : Option Children) :
    Except IterFault (List (ReadStackState T)) :=
  match root_children.map Children.first with
  | some first_child => readPush sg first_child []
  | none => .ok []

/-- One advance of the read iterator after popping a frame: push the
popped node's next sibling (if any), then its first child (if any), in
that order, so the child frame ends on top of the stack. -/
def readStep (sg : SceneGraph T) (frame : ReadStackState T)
    (rest : List (ReadStackState T)) :
    Except IterFault (List (ReadStackState T)) :=
  match frame.current_child.next_sibling with
  | none =>
    match frame.current_child.children with
    | none => .ok rest
    | some ch => readPush sg ch.first rest
  | some sib =>
    match readPush sg sib rest with
    | .error e => .error e
    | .ok s1 =>
      match frame.current_child.children with
      | none => .ok s1
      | some ch => readPush sg ch.first s1

/-- Exhaust the read iterator: repeatedly apply
SceneGraphIterWithIndex::next, collecting the yielded
(identifier, value) pairs.  One unit of fuel is one popped frame. -/
def readRun (sg : SceneGraph T) :
    Nat → List (ReadStackState T) → Except IterFault (List (NodeIndex × T))
  | _, [] => .ok []
  | 0, _ :: _ => .error .fuelOut
  | fuel+1, frame :: rest =>
    match readStep sg frame rest with
    | .error e => .error e
    | .ok s2 =>
      match readRun sg fuel s2 with
      | .error e => .error e
      | .ok out =>
        .ok ((frame.current_child_index, frame.current_child.value) :: out)

/-! ## Mutable predicate iterator (SceneGraphIterMutPredicate) -/

/-- A stack frame of the mutable predicate iterator: the parent's
identifier and the candidate child's slot (the source's StackState). -/
structure MutStackState where
  parent : NodeIndex
  current_child : Slot
deriving DecidableEq, Repr

/-- SceneGraphIterMutPredicate::new: resolve the start node's first
child (root children for Root, an arena lookup for Branch) and seed the
stack with one frame for it; total, never fails. -/
def mutNew (sg : SceneGraph T) (root_node_idx : NodeIndex) :
    List MutStackState :=
  let first_child : Option Slot :=
    match root_node_idx with
    | NodeIndex.Root => sg.root_children.map Children.first
    | NodeIndex.Branch idx =>
      (sg.get idx).bind (fun v => v.children.map Children.first)
  match first_child with
  | some fc => [⟨root_node_idx, fc⟩]
  | none => []

/-- Exhaust the mutable predicate iterator: repeatedly apply
SceneGraphIterMutPredicate::next, collecting for each yielded pair the
candidate's slot together with the (parent value, child value) pair,
and additionally logging every value the predicate is invoked on, in
invocation order.  One unit of fuel is one popped frame (one iteration
of the source's while loop).  A Root-parent frame evaluates the
predicate on the root before anything else and abandons the frame,
without pushing the sibling, if the root is rejected; a Branch-parent
frame goes through get2_mut, which is fatal on equal indices; the
sibling is pushed before the candidate's own predicate test, and the
candidate's first child is pushed (under the candidate as new parent)
only if the candidate is admitted. -/
def mutRun (sg : SceneGraph T) (pred : T → Bool) :
    Nat → List MutStackState →
    Except IterFault (List (Slot × T × T) × List T)
  | _, [] => .ok ([], [])
  | 0, _ :: _ => .error .fuelOut
  | fuel+1, frame :: rest =>
    match frame.parent with
    | NodeIndex.Root =>
      if pred sg.root then
        match sg.get frame.current_child with
        | none => .error .missingSlot
        | some child =>
          let s1 : List MutStackState :=
            match child.next_sibling with
            | some sib => ⟨frame.parent, sib⟩ :: rest
            | none => rest
          if pred child.value then
            let s2 : List MutStackState :=
              match child.children with
              | some ch =>
                ⟨NodeIndex.Branch frame.current_child, ch.first⟩ :: s1
              | none => s1
            match mutRun sg pred fuel s2 with
            | .error e => .error e
            | .ok (out, log) =>
              .ok ((frame.current_child, sg.root, child.value) :: out,
                sg.root :: child.value :: log)
          else
            match mutRun sg pred fuel s1 with
            | .error e => .error e
            | .ok (out, log) => .ok (out, sg.root :: child.value :: log)
      else
        match mutRun sg pred fuel rest with
        | .error e => .error e
        | .ok (out, log) => .ok (out, sg.root :: log)
    | NodeIndex.Branch p =>
      if p = frame.current_child then .error .equalIndices
      else
        match sg.get p, sg.get frame.current_child with
        | some parentNode, some child =>
          let s1 : List MutStackState :=
            match child.next_sibling with
            | some sib => ⟨frame.parent, sib⟩ :: rest
            | none => rest
          if pred child.value then
            let s2 : List MutStackState :=
              match child.children with
              | some ch =>
                ⟨NodeIndex.Branch frame.current_child, ch.first⟩ :: s1
              | none => s1
            match mutRun sg pred fuel s2 with
            | .error e => .error e
            | .ok (out, log) =>
              .ok ((frame.current_child, parentNode.value, child.value) :: out,
                child.value :: log)
          else
            match mutRun sg pred fuel s1 with
            | .error e => .error e
            | .ok (out, log) => .ok (out, child.value :: log)
        | _, _ => .error .missingSlot

/-! ## Forest certificates

A valid tree is witnessed by a finite forest certificate recording, for
every node reachable from a given chain head, its slot, its value and
its children, in sibling-chain order.  encForest checks a certificate
against the linked representation in the arena. -/

mutual
/-- A certificate for one node: its slot, its value, and certificates
for its children in attachment order. -/
inductive RTree (T : Type) where
  | mk (slot : Slot) (value : T) (children : RForest T)
/-- A certificate for one sibling chain. -/
inductive RForest (T : Type) where
  | nil
  | cons (t : RTree T) (rest : RForest T)
end

/-- Number of nodes in a forest certificate. -/
def sizeForest : RForest T → Nat
  | .nil => 0
  | .cons (.mk _ _ cs) rest => 1 + sizeForest cs + sizeForest rest

/-- Check that a forest certificate describes exactly the sibling chain
starting at the given head slot: the chain's slots, values, child lists
and sibling links all match the arena's records. -/
def encForest [DecidableEq T] (sg : SceneGraph T) :
    Option Slot → RForest T → Bool
  | none, .nil => true
  | none, .cons _ _ => false
  | some _, .nil => false
  | some i, .cons (.mk s v cs) rest =>
    decide (s = i) &&
      match sg.get i with
      | none => false
      | some n =>
        decide (n.value = v) &&
          encForest sg (n.children.map Children.first) cs &&
          encForest sg n.next_sibling rest

/-- All slots of a forest certificate, in depth-first preorder. -/
def slotsForest : RForest T → List Slot
  | .nil => []
  | .cons (.mk i _ cs) rest => i :: (slotsForest cs ++ slotsForest rest)

/-- Depth-first preorder of a forest: each node as an
(identifier, value) pair, children before the next sibling. -/
def preForest : RForest T → List (NodeIndex × T)
  | .nil => []
  | .cons (.mk i v cs) rest =>
    (NodeIndex.Branch i, v) :: (preForest cs ++ preForest rest)

/-- Predicate-pruned depth-first preorder of a forest: an admitted node
contributes (its slot, the enclosing parent value, its value) and then
its children pruned under itself; a rejected node contributes nothing
and its subtree is skipped, while its following siblings continue under
the same parent value. -/
def prunedForest (pred : T → Bool) (pv : T) : RForest T → List (Slot × T × T)
  | .nil => []
  | .cons (.mk i v cs) rest =>
    if pred v then
      (i, pv, v) :: (prunedForest pred v cs ++ prunedForest pred pv rest)
    else prunedForest pred pv rest

/-- Remove from a forest every subtree whose root carries the given
slot (at most one exists when the forest's slots are distinct). -/
def eraseForest (x : Slot) : RForest T → RForest T
  | .nil => .nil
  | .cons (.mk i v cs) rest =>
    if i = x then eraseForest x rest
    else .cons (.mk i v (eraseForest x cs)) (eraseForest x rest)

/-- Find the subtree rooted at the given slot: returns its value and
its children certificate. -/
def subForestAt (x : Slot) : RForest T → Option (T × RForest T)
  | .nil => none
  | .cons (.mk i v cs) rest =>
    if i = x then some (v, cs)
    else
      match subForestAt x cs with
      | some r => some r
      | none => subForestAt x rest

/-- The start-node children resolution performed by the container when
handing out an iterator (Root reads the inline child range, Branch
resolves its slot in the arena), as in
SceneGraphIterMutPredicate::new and the container's iteration entry
points. -/
def childrenOf (sg : SceneGraph T) (idx : NodeIndex) : Option Children :=
  match idx with
  | NodeIndex.Root => sg.root_children
  | NodeIndex.Branch i => (sg.get i).bind Node.children

/-- Total node count of a list of forests. -/
def sizeForests : List (RForest T) → Nat
  | [] => 0
  | f :: fs => sizeForest f + sizeForests fs

/-- Concatenated preorders of a list of forests. -/
def outForests : List (RForest T) → List (NodeIndex × T)
  | [] => []
  | f :: fs => preForest f ++ outForests fs

/-- The read iterator's stack abstraction: each frame, from the top
down, stands for the certified sibling chain headed by the frame's
slot; the frame caches the resolved node record, as the source caches a
reference. -/
inductive ReadRep [DecidableEq T] (sg : SceneGraph T) :
    List (ReadStackState T) → List (RForest T) → Prop where
  | nil : ReadRep sg [] []
  | cons {i : Slot} {n : Node T} {f : RForest T}
      {s : List (ReadStackState T)} {fs : List (RForest T)}
      (hget : sg.get i = some n)
      (henc : encForest sg (some i) f = true)
      (hrest : ReadRep sg s fs) :
      ReadRep sg (⟨NodeIndex.Branch i, n⟩ :: s) (f :: fs)

/-- Contribution of one pending frame to the remaining yield sequence:
the pruned preorder of its chain under the frame's parent value.  A
Root-parent frame yields nothing if the root is rejected (and the
sibling chain dies with it). -/
def frameOut (sg : SceneGraph T) (pred : T → Bool) (frame : MutStackState)
    (f : RForest T) : List (Slot × T × T) :=
  match frame.parent with
  | NodeIndex.Root => if pred sg.root then prunedForest pred sg.root f else []
  | NodeIndex.Branch p =>
    match sg.get p with
    | some pn => prunedForest pred pn.value f
    | none => []

/-- Concatenated contributions of a whole pending stack. -/
def stackOut (sg : SceneGraph T) (pred : T → Bool) :
    List MutStackState → List (RForest T) → List (Slot × T × T)
  | frame :: s, f :: fs => frameOut sg pred frame f ++ stackOut sg pred s fs
  | _, _ => []

/-- The mutable predicate iterator's stack abstraction: each frame,
from the top down, stands for the certified sibling chain headed by its
candidate slot; a Branch parent resolves in the arena and its slot is
disjoint from the whole represented chain (this is what keeps the
get2_mut equal-index branch unreachable). -/
inductive MutRep [DecidableEq T] (sg : SceneGraph T) :
    List MutStackState → List (RForest T) → Prop where
  | nil : MutRep sg [] []
  | consRoot {c : Slot} {f : RForest T} {s : List MutStackState}
      {fs : List (RForest T)}
      (henc : encForest sg (some c) f = true)
      (hrest : MutRep sg s fs) :
      MutRep sg (⟨NodeIndex.Root, c⟩ :: s) (f :: fs)
  | consBranch {p c : Slot} {pn : Node T} {f : RForest T}
      {s : List MutStackState} {fs : List (RForest T)}
      (hp : sg.get p = some pn)
      (hnotin : p ∉ slotsForest f)
      (henc : encForest sg (some c) f = true)
      (hrest : MutRep sg s fs) :
      MutRep sg (⟨NodeIndex.Branch p, c⟩ :: s) (f :: fs)

/-! ## A concrete example graph for the witnesses

The shape of the spec's first scenario: a root (value 10) with two
children 1 (slot 0) and 2 (slot 1) in attachment order, and 3 (slot 2)
attached under slot 1. -/

/-- Example container. -/
def sgEx : SceneGraph Nat :=
  { root := 10
    root_children := some ⟨0, 1⟩
    arena := [some ⟨1, none, some 1⟩, some ⟨2, some ⟨2, 2⟩, none⟩,
      some ⟨3, none, none⟩] }

/-- Certificate for the example container's tree below the root. -/
def fEx : RForest Nat :=
  RForest.cons (RTree.mk 0 1 RForest.nil)
    (RForest.cons
      (RTree.mk 1 2 (RForest.cons (RTree.mk 2 3 RForest.nil) RForest.nil))
      RForest.nil)

/-- The two error classes of starting a read traversal: the recoverable
NodeNotFound condition for a stale Branch start, or an arena fault
surfaced by iterator construction itself. -/
inductive StartErr where
  | nodeNotFound
  | arenaFault (e : IterFault)
deriving DecidableEq, Repr

/-- Modelled from the spec: the container's read-traversal entry point
(iterate_from / iter_from_node_with_index), which lives outside the two
iterator source files.  Given a starting identifier it fails with
NodeNotFound, before any traversal begins, when a Branch identifier's
slot no longer resolves in the arena; otherwise it resolves the start
node's children and defers to SceneGraphIterWithIndex::new (readNew).
Root is always accepted. -/
def iter_from_node_with_index (sg : SceneGraph T) (idx : NodeIndex) :
    Except StartErr (List (ReadStackState T)) :=
  match idx with
  | NodeIndex.Root =>
    match readNew sg idx sg.root_children with
    | .ok s => .ok s
    | .error e => .error (.arenaFault e)
  | NodeIndex.Branch i =>
    match sg.get i with
    | none => .error .nodeNotFound
    | some n =>
      match readNew sg idx n.children with
      | .ok s => .ok s
      | .error e => .error (.arenaFault e)

/-! ## Basic facts about certificates -/

/-- Strong induction on the node count of a forest certificate. -/
theorem RForest.strongInduction {T : Type} {motive : RForest T → Prop}
    (step : ∀ f, (∀ g, sizeForest g < sizeForest f → motive g) → motive f)
    (f : RForest T) : motive f := by
  have key : ∀ (N : Nat) (g : RForest T), sizeForest g ≤ N → motive g := by
    intro N
    induction N with
    | zero =>
      intro g hg
      exact step g (fun g' hg' => absurd (Nat.lt_of_lt_of_le hg' hg) (Nat.not_lt_zero _))
    | succ N ih =>
      intro g hg
      exact step g (fun g' hg' => ih g' (Nat.le_of_lt_succ (Nat.lt_of_lt_of_le hg' hg)))
  exact key (sizeForest f) f (Nat.le_refl _)

/-- A certificate for an empty chain head is the empty forest. -/
theorem encForest_none_elim [DecidableEq T] {sg : SceneGraph T}
    {f : RForest T} (h : encForest sg none f = true) : f = RForest.nil := by
  match f with
  | .nil => rfl
  | .cons t rest => simp [encForest] at h

/-- Unfolding a certificate for a nonempty chain head: the forest starts
with a tree for the head slot, the head resolves in the arena with the
recorded value, and the children and sibling chains are certified in
turn. -/
theorem encForest_some_elim [DecidableEq T] {sg : SceneGraph T} {i : Slot}
    {f : RForest T} (h : encForest sg (some i) f = true) :
    ∃ (n : Node T) (cs rest : RForest T),
      f = RForest.cons (RTree.mk i n.value cs) rest ∧ sg.get i = some n ∧
      encForest sg (n.children.map Children.first) cs = true ∧
      encForest sg n.next_sibling rest = true := by
  match f with
  | .nil => simp [encForest] at h
  | .cons (.mk s v cs) rest =>
    rw [encForest] at h
    cases hg : sg.get i with
    | none => rw [hg] at h; simp at h
    | some n =>
      rw [hg] at h
      simp only [Bool.and_eq_true, decide_eq_true_eq] at h
      obtain ⟨hsi, ⟨hv, hcs⟩, hrest⟩ := h
      subst hsi
      subst hv
      exact ⟨n, cs, rest, rfl, rfl, hcs, hrest⟩

/-- A certified forest for a nonempty head has at least one node. -/
theorem encForest_some_size [DecidableEq T] {sg : SceneGraph T} {i : Slot}
    {f : RForest T} (h : encForest sg (some i) f = true) :
    1 ≤ sizeForest f := by
  obtain ⟨n, cs, rest, hf, -, -, -⟩ := encForest_some_elim h
  subst hf
  simp only [sizeForest]
  omega

/-- The certificate of a chain is unique: two certified forests for the
same head coincide. -/
theorem encForest_unique [DecidableEq T] (sg : SceneGraph T)
    (f1 : RForest T) : ∀ (h : Option Slot) (f2 : RForest T),
    encForest sg h f1 = true → encForest sg h f2 = true → f1 = f2 := by
  induction f1 using RForest.strongInduction with
  | step f1 ih =>
    intro h f2 h1 h2
    match h with
    | none =>
      rw [encForest_none_elim h1, encForest_none_elim h2]
    | some i =>
      obtain ⟨n1, cs1, r1, hf1, hg1, hc1, hs1⟩ := encForest_some_elim h1
      obtain ⟨n2, cs2, r2, hf2, hg2, hc2, hs2⟩ := encForest_some_elim h2
      subst hf1; subst hf2
      rw [hg1] at hg2
      cases hg2
      have hsz1 : sizeForest cs1 < sizeForest (RForest.cons (RTree.mk i n1.value cs1) r1) := by
        simp only [sizeForest]; omega
      have hsz2 : sizeForest r1 < sizeForest (RForest.cons (RTree.mk i n1.value cs1) r1) := by
        simp only [sizeForest]; omega
      rw [ih cs1 hsz1 _ cs2 hc1 hc2, ih r1 hsz2 _ r2 hs1 hs2]

/-- Any slot of a certified forest resolves in the arena, and its own
children chain is certified by a strictly smaller forest. -/
theorem mem_slots_encForest [DecidableEq T] (sg : SceneGraph T)
    (f : RForest T) : ∀ (h : Option Slot) (i : Slot),
    encForest sg h f = true → i ∈ slotsForest f →
    ∃ (n : Node T) (cs : RForest T), sg.get i = some n ∧
      encForest sg (n.children.map Children.first) cs = true ∧
      sizeForest cs < sizeForest f := by
  induction f using RForest.strongInduction with
  | step f ih =>
    intro h i henc hmem
    match h with
    | none =>
      rw [encForest_none_elim henc] at hmem
      simp [slotsForest] at hmem
    | some j =>
      obtain ⟨n, cs, rest, hf, hg, hcs, hrest⟩ := encForest_some_elim henc
      subst hf
      rw [slotsForest, List.mem_cons, List.mem_append] at hmem
      have hszc : sizeForest cs < sizeForest (RForest.cons (RTree.mk j n.value cs) rest) := by
        simp only [sizeForest]; omega
      have hszr : sizeForest rest < sizeForest (RForest.cons (RTree.mk j n.value cs) rest) := by
        simp only [sizeForest]; omega
      rcases hmem with hij | hic | hir
      · subst hij
        exact ⟨n, cs, hg, hcs, hszc⟩
      · obtain ⟨m, ds, hgm, hdsenc, hdsz⟩ := ih cs hszc _ i hcs hic
        exact ⟨m, ds, hgm, hdsenc, Nat.lt_trans hdsz hszc⟩
      · obtain ⟨m, ds, hgm, hdsenc, hdsz⟩ := ih rest hszr _ i hrest hir
        exact ⟨m, ds, hgm, hdsenc, Nat.lt_trans hdsz hszr⟩

/-- A node's own slot never occurs in the certificate of its children
chain: a self-referring descent would force an infinitely deep
certificate. -/
theorem not_self_in_children [DecidableEq T] {sg : SceneGraph T}
    {c : Slot} {n : Node T} {cs : RForest T}
    (hget : sg.get c = some n)
    (henc : encForest sg (n.children.map Children.first) cs = true) :
    c ∉ slotsForest cs := by
  intro hmem
  obtain ⟨n', cs', hg', henc', hsz⟩ :=
    mem_slots_encForest sg cs (n.children.map Children.first) c henc hmem
  rw [hget] at hg'
  cases hg'
  rw [encForest_unique sg cs' _ cs henc' henc] at hsz
  exact Nat.lt_irrefl _ hsz

/-! ## Read iterator: stack abstraction and main characterization -/

/-- Running the read iterator from an abstracted stack yields exactly
the concatenated preorders of the represented chains, with no fault,
whenever the fuel covers the total node count. -/
theorem readRun_rep [DecidableEq T] (sg : SceneGraph T) :
    ∀ (fuel : Nat) (s : List (ReadStackState T)) (fs : List (RForest T)),
    ReadRep sg s fs → sizeForests fs ≤ fuel →
    readRun sg fuel s = .ok (outForests fs) := by
  intro fuel
  induction fuel with
  | zero =>
    intro s fs hrep hsz
    cases hrep with
    | nil => simp [readRun, outForests]
    | cons hget henc hrest =>
      exfalso
      have h1 := encForest_some_size henc
      rename_i fs'
      simp only [sizeForests] at hsz
      omega
  | succ fuel ih =>
    intro s fs hrep hsz
    cases hrep with
    | nil => simp [readRun, outForests]
    | cons hget henc hrest =>
      rename_i i n f s' fs'
      obtain ⟨n', cs, rest', hf, hget', hcs, hsib⟩ := encForest_some_elim henc
      subst hf
      rw [hget] at hget'
      cases hget'
      simp only [sizeForests, sizeForest] at hsz
      cases hns : n.next_sibling with
      | none =>
        rw [hns] at hsib
        have hrest' := encForest_none_elim hsib
        subst hrest'
        cases hch : n.children with
        | none =>
          rw [hch] at hcs
          simp only [Option.map_none'] at hcs
          have hcs' := encForest_none_elim hcs
          subst hcs'
          have hrun := ih s' fs' hrest (by simp only [sizeForest] at hsz; omega)
          simp only [readRun, readStep, hns, hch, hrun]
          simp [outForests, preForest, sizeForest]
        | some ch =>
          rw [hch] at hcs
          simp only [Option.map_some'] at hcs
          obtain ⟨m, ds, rest2, hcsf, hgm, -, -⟩ := encForest_some_elim hcs
          have hrep2 : ReadRep sg (⟨NodeIndex.Branch ch.first, m⟩ :: s') (cs :: fs') :=
            ReadRep.cons hgm hcs hrest
          have hrun := ih _ _ hrep2 (by
            simp only [sizeForests, sizeForest] at hsz ⊢
            omega)
          simp only [readRun, readStep, hns, hch, readPush, hgm, hrun]
          simp [outForests, preForest]
      | some sib =>
        rw [hns] at hsib
        obtain ⟨m2, ds2, rest2, hsibf, hgm2, -, -⟩ := encForest_some_elim hsib
        cases hch : n.children with
        | none =>
          rw [hch] at hcs
          simp only [Option.map_none'] at hcs
          have hcs' := encForest_none_elim hcs
          subst hcs'
          have hrep2 : ReadRep sg (⟨NodeIndex.Branch sib, m2⟩ :: s') (rest' :: fs') :=
            ReadRep.cons hgm2 hsib hrest
          have hrun := ih _ _ hrep2 (by
            simp only [sizeForests, sizeForest] at hsz ⊢
            omega)
          simp only [readRun, readStep, hns, hch, readPush, hgm2, hrun]
          simp [outForests, preForest, sizeForest]
        | some ch =>
          rw [hch] at hcs
          simp only [Option.map_some'] at hcs
          obtain ⟨m, ds, rest3, hcsf, hgm, -, -⟩ := encForest_some_elim hcs
          have hrep2 : ReadRep sg
              (⟨NodeIndex.Branch ch.first, m⟩ :: ⟨NodeIndex.Branch sib, m2⟩ :: s')
              (cs :: rest' :: fs') :=
            ReadRep.cons hgm hcs (ReadRep.cons hgm2 hsib hrest)
          have hrun := ih _ _ hrep2 (by
            simp only [sizeForests, sizeForest] at hsz ⊢
            omega)
          simp only [readRun, readStep, hns, hch, readPush, hgm2, hgm, hrun]
          simp [outForests, preForest]

/-- Top-level characterization of the read iterator: constructed from a
start node whose children chain is certified by f, it runs to
completion without fault and yields exactly the preorder of f. -/
theorem readRun_spec [DecidableEq T] (sg : SceneGraph T)
    (root_index : NodeIndex) (cOpt : Option Children) (f : RForest T)
    (fuel : Nat)
    (henc : encForest sg (cOpt.map Children.first) f = true)
    (hfuel : sizeForest f ≤ fuel) :
    ∃ s, readNew sg root_index cOpt = .ok s ∧
      readRun sg fuel s = .ok (preForest f) := by
  cases cOpt with
  | none =>
    simp only [Option.map_none'] at henc
    have hf := encForest_none_elim henc
    subst hf
    refine ⟨[], ?_, ?_⟩
    · simp [readNew]
    · simp [readRun, preForest]
  | some c =>
    simp only [Option.map_some'] at henc
    obtain ⟨n, cs, rest, hf, hg, -, -⟩ := encForest_some_elim henc
    have hrep : ReadRep sg [⟨NodeIndex.Branch c.first, n⟩] [f] :=
      ReadRep.cons hg henc ReadRep.nil
    have hrun := readRun_rep sg fuel _ _ hrep (by
      simp only [sizeForests]
      omega)
    refine ⟨[⟨NodeIndex.Branch c.first, n⟩], ?_, ?_⟩
    · simp [readNew, readPush, hg]
    · rw [hrun]
      simp [outForests]

/-! ## Facts feeding claim 1 -/

/-- The identifiers yielded by a preorder are the certificate's slots,
tagged as branches, in the same order. -/
theorem preForest_fst (f : RForest T) :
    (preForest f).map Prod.fst = (slotsForest f).map NodeIndex.Branch := by
  induction f using RForest.strongInduction with
  | step f ih =>
    match f with
    | .nil => simp [preForest, slotsForest]
    | .cons (.mk i v cs) rest =>
      have h1 := ih cs (by simp only [sizeForest]; omega)
      have h2 := ih rest (by simp only [sizeForest]; omega)
      simp [preForest, slotsForest, h1, h2]

/-- A branch node's slot never occurs in the certified forest of its
own children chain. -/
theorem start_not_in_forest [DecidableEq T] {sg : SceneGraph T} {b : Slot}
    {f : RForest T}
    (henc : encForest sg
      (((sg.get b).bind Node.children).map Children.first) f = true) :
    b ∉ slotsForest f := by
  intro hmem
  obtain ⟨n', cs', hg', henc', hsz⟩ := mem_slots_encForest sg f _ b henc hmem
  rw [hg'] at henc
  simp only [Option.some_bind] at henc
  rw [encForest_unique sg cs' _ f henc' henc] at hsz
  exact Nat.lt_irrefl _ hsz

/-- C1: for every valid tree and valid start node (root or branch), the
read iterator yields exactly the proper descendants of the start node,
each exactly once, paired with its own identifier, in depth-first
preorder (children in sibling-chain order, a subtree exhausted before
the next sibling), and never yields the start node itself; with no
children it yields the empty sequence (preForest of the empty
certificate). -/
theorem claim1_read_preorder [DecidableEq T] (sg : SceneGraph T)
    (start : NodeIndex) (f : RForest T) (fuel : Nat)
    (henc : encForest sg ((childrenOf sg start).map Children.first) f = true)
    (hnd : (slotsForest f).Nodup)
    (hfuel : sizeForest f ≤ fuel) :
    ∃ s, readNew sg start (childrenOf sg start) = .ok s ∧
      readRun sg fuel s = .ok (preForest f) ∧
      ((preForest f).map Prod.fst).Nodup ∧
      ∀ x ∈ preForest f, x.1 ≠ start := by
  obtain ⟨s, hnew, hrun⟩ :=
    readRun_spec sg start (childrenOf sg start) f fuel henc hfuel
  refine ⟨s, hnew, hrun, ?_, ?_⟩
  · rw [preForest_fst]
    exact hnd.map (fun a b h => by injection h)
  · intro x hx
    have hx1 : x.1 ∈ (preForest f).map Prod.fst := List.mem_map_of_mem _ hx
    rw [preForest_fst] at hx1
    obtain ⟨sl, hsl, hxeq⟩ := List.mem_map.mp hx1
    cases start with
    | Root =>
      rw [← hxeq]
      intro hc
      cases hc
    | Branch b =>
      simp only [childrenOf] at henc
      have hnotin := start_not_in_forest henc
      rw [← hxeq]
      intro hc
      injection hc with hbe
      exact hnotin (hbe ▸ hsl)

/-- Witness for C1 at the example graph, started from the root. -/
theorem claim1_read_preorder_witness :
    ∃ s, readNew sgEx NodeIndex.Root (childrenOf sgEx NodeIndex.Root) = .ok s ∧
      readRun sgEx 3 s = .ok (preForest fEx) ∧
      ((preForest fEx).map Prod.fst).Nodup ∧
      ∀ x ∈ preForest fEx, x.1 ≠ NodeIndex.Root :=
  claim1_read_preorder sgEx NodeIndex.Root fEx 3 (by decide) (by decide)
    (by decide)

/-! ## Mutable predicate iterator: stack abstraction and main
characterization -/

/-- Running the mutable predicate iterator from an abstracted stack
yields exactly the concatenated frame contributions, with no fault (in
particular the equal-index fatal branch of get2_mut is never taken),
whenever the fuel covers the total node count. -/
theorem mutRun_rep [DecidableEq T] (sg : SceneGraph T) (pred : T → Bool) :
    ∀ (fuel : Nat) (s : List MutStackState) (fs : List (RForest T)),
    MutRep sg s fs → sizeForests fs ≤ fuel →
    ∃ log, mutRun sg pred fuel s = .ok (stackOut sg pred s fs, log) := by
  intro fuel
  induction fuel with
  | zero =>
    intro s fs hrep hsz
    cases hrep with
    | nil => exact ⟨[], by simp [mutRun, stackOut]⟩
    | consRoot henc hrest =>
      exfalso
      have h1 := encForest_some_size henc
      simp only [sizeForests] at hsz
      omega
    | consBranch hp hnotin henc hrest =>
      exfalso
      have h1 := encForest_some_size henc
      simp only [sizeForests] at hsz
      omega
  | succ fuel ih =>
    intro s fs hrep hsz
    cases hrep with
    | nil => exact ⟨[], by simp [mutRun, stackOut]⟩
    | consRoot henc hrest =>
      rename_i c f s' fs'
      obtain ⟨n, cs, rest', hf, hg, hcs, hsib⟩ := encForest_some_elim henc
      subst hf
      simp only [sizeForests, sizeForest] at hsz
      by_cases hroot : pred sg.root = true
      · -- root admitted: the frame's candidate is examined
        have hnotin2 := not_self_in_children hg hcs
        by_cases hpv : pred n.value = true
        · -- candidate admitted
          cases hns : n.next_sibling with
          | none =>
            rw [hns] at hsib
            have hrest'nil := encForest_none_elim hsib
            subst hrest'nil
            cases hch : n.children with
            | none =>
              rw [hch] at hcs
              simp only [Option.map_none'] at hcs
              have hcsnil := encForest_none_elim hcs
              subst hcsnil
              obtain ⟨log', hrec⟩ := ih s' fs' hrest (by omega)
              refine ⟨sg.root :: n.value :: log', ?_⟩
              simp only [mutRun, hroot, hg, hns, hch, hpv, hrec]
              simp [stackOut, frameOut, hroot, prunedForest, hpv, sizeForest]
            | some ch =>
              rw [hch] at hcs
              simp only [Option.map_some'] at hcs
              have hrep2 : MutRep sg (⟨NodeIndex.Branch c, ch.first⟩ :: s')
                  (cs :: fs') := MutRep.consBranch hg hnotin2 hcs hrest
              obtain ⟨log', hrec⟩ := ih _ _ hrep2 (by
                simp only [sizeForests]; omega)
              refine ⟨sg.root :: n.value :: log', ?_⟩
              simp only [mutRun, hroot, hg, hns, hch, hpv, hrec]
              simp [stackOut, frameOut, hroot, prunedForest, hpv, hg,
                List.append_assoc, sizeForest]
          | some sib =>
            rw [hns] at hsib
            have hrep1 : MutRep sg (⟨NodeIndex.Root, sib⟩ :: s')
                (rest' :: fs') := MutRep.consRoot hsib hrest
            cases hch : n.children with
            | none =>
              rw [hch] at hcs
              simp only [Option.map_none'] at hcs
              have hcsnil := encForest_none_elim hcs
              subst hcsnil
              obtain ⟨log', hrec⟩ := ih _ _ hrep1 (by
                simp only [sizeForests]; omega)
              refine ⟨sg.root :: n.value :: log', ?_⟩
              simp only [mutRun, hroot, hg, hns, hch, hpv, hrec]
              simp [stackOut, frameOut, hroot, prunedForest, hpv, sizeForest]
            | some ch =>
              rw [hch] at hcs
              simp only [Option.map_some'] at hcs
              have hrep2 : MutRep sg
                  (⟨NodeIndex.Branch c, ch.first⟩ :: ⟨NodeIndex.Root, sib⟩ :: s')
                  (cs :: rest' :: fs') :=
                MutRep.consBranch hg hnotin2 hcs hrep1
              obtain ⟨log', hrec⟩ := ih _ _ hrep2 (by
                simp only [sizeForests]; omega)
              refine ⟨sg.root :: n.value :: log', ?_⟩
              simp only [mutRun, hroot, hg, hns, hch, hpv, hrec]
              simp [stackOut, frameOut, hroot, prunedForest, hpv, hg,
                List.append_assoc, sizeForest]
        · -- candidate rejected: its subtree is skipped, the sibling
          -- frame (already pushed) survives
          cases hns : n.next_sibling with
          | none =>
            rw [hns] at hsib
            have hrest'nil := encForest_none_elim hsib
            subst hrest'nil
            obtain ⟨log', hrec⟩ := ih s' fs' hrest (by omega)
            refine ⟨sg.root :: n.value :: log', ?_⟩
            simp only [mutRun, hroot, hg, hns, hpv, hrec]
            simp [stackOut, frameOut, hroot, prunedForest, hpv, sizeForest]
          | some sib =>
            rw [hns] at hsib
            have hrep1 : MutRep sg (⟨NodeIndex.Root, sib⟩ :: s')
                (rest' :: fs') := MutRep.consRoot hsib hrest
            obtain ⟨log', hrec⟩ := ih _ _ hrep1 (by
              simp only [sizeForests]; omega)
            refine ⟨sg.root :: n.value :: log', ?_⟩
            simp only [mutRun, hroot, hg, hns, hpv, hrec]
            simp [stackOut, frameOut, hroot, prunedForest, hpv, sizeForest]
      · -- root rejected: the frame dies without pushing its sibling
        obtain ⟨log', hrec⟩ := ih s' fs' hrest (by omega)
        refine ⟨sg.root :: log', ?_⟩
        simp only [mutRun, hroot, hrec]
        simp [stackOut, frameOut, hroot]
    | consBranch hp hnotin henc hrest =>
      rename_i p c pn f s' fs'
      obtain ⟨n, cs, rest', hf, hg, hcs, hsib⟩ := encForest_some_elim henc
      subst hf
      simp only [sizeForests, sizeForest] at hsz
      have hcmem : c ∈ slotsForest
          (RForest.cons (RTree.mk c n.value cs) rest') := by
        simp [slotsForest]
      have hpc : ¬ p = c := fun hpc => hnotin (hpc ▸ hcmem)
      have hnotin2 := not_self_in_children hg hcs
      have hnotin_cs : p ∉ slotsForest cs := fun hmem =>
        hnotin (by simp [slotsForest, hmem])
      have hnotin_rest : p ∉ slotsForest rest' := fun hmem =>
        hnotin (by simp [slotsForest, hmem])
      by_cases hpv : pred n.value = true
      · cases hns : n.next_sibling with
        | none =>
          rw [hns] at hsib
          have hrest'nil := encForest_none_elim hsib
          subst hrest'nil
          cases hch : n.children with
          | none =>
            rw [hch] at hcs
            simp only [Option.map_none'] at hcs
            have hcsnil := encForest_none_elim hcs
            subst hcsnil
            obtain ⟨log', hrec⟩ := ih s' fs' hrest (by omega)
            refine ⟨n.value :: log', ?_⟩
            simp only [mutRun, hpc, hp, hg, hns, hch, hpv, hrec]
            simp [stackOut, frameOut, hp, prunedForest, hpv, sizeForest]
          | some ch =>
            rw [hch] at hcs
            simp only [Option.map_some'] at hcs
            have hrep2 : MutRep sg (⟨NodeIndex.Branch c, ch.first⟩ :: s')
                (cs :: fs') := MutRep.consBranch hg hnotin2 hcs hrest
            obtain ⟨log', hrec⟩ := ih _ _ hrep2 (by
              simp only [sizeForests]; omega)
            refine ⟨n.value :: log', ?_⟩
            simp only [mutRun, hpc, hp, hg, hns, hch, hpv, hrec]
            simp [stackOut, frameOut, hp, hg, prunedForest, hpv,
              List.append_assoc, sizeForest]
        | some sib =>
          rw [hns] at hsib
          have hrep1 : MutRep sg (⟨NodeIndex.Branch p, sib⟩ :: s')
              (rest' :: fs') := MutRep.consBranch hp hnotin_rest hsib hrest
          cases hch : n.children with
          | none =>
            rw [hch] at hcs
            simp only [Option.map_none'] at hcs
            have hcsnil := encForest_none_elim hcs
            subst hcsnil
            obtain ⟨log', hrec⟩ := ih _ _ hrep1 (by
              simp only [sizeForests]; omega)
            refine ⟨n.value :: log', ?_⟩
            simp only [mutRun, hpc, hp, hg, hns, hch, hpv, hrec]
            simp [stackOut, frameOut, hp, prunedForest, hpv, sizeForest]
          | some ch =>
            rw [hch] at hcs
            simp only [Option.map_some'] at hcs
            have hrep2 : MutRep sg
                (⟨NodeIndex.Branch c, ch.first⟩ :: ⟨NodeIndex.Branch p, sib⟩ :: s')
                (cs :: rest' :: fs') :=
              MutRep.consBranch hg hnotin2 hcs hrep1
            obtain ⟨log', hrec⟩ := ih _ _ hrep2 (by
              simp only [sizeForests]; omega)
            refine ⟨n.value :: log', ?_⟩
            simp only [mutRun, hpc, hp, hg, hns, hch, hpv, hrec]
            simp [stackOut, frameOut, hp, hg, prunedForest, hpv,
              List.append_assoc, sizeForest]
      · cases hns : n.next_sibling with
        | none =>
          rw [hns] at hsib
          have hrest'nil := encForest_none_elim hsib
          subst hrest'nil
          obtain ⟨log', hrec⟩ := ih s' fs' hrest (by omega)
          refine ⟨n.value :: log', ?_⟩
          simp only [mutRun, hpc, hp, hg, hns, hpv, hrec]
          simp [stackOut, frameOut, hp, prunedForest, hpv, sizeForest]
        | some sib =>
          rw [hns] at hsib
          have hrep1 : MutRep sg (⟨NodeIndex.Branch p, sib⟩ :: s')
              (rest' :: fs') := MutRep.consBranch hp hnotin_rest hsib hrest
          obtain ⟨log', hrec⟩ := ih _ _ hrep1 (by
            simp only [sizeForests]; omega)
          refine ⟨n.value :: log', ?_⟩
          simp only [mutRun, hpc, hp, hg, hns, hpv, hrec]
          simp [stackOut, frameOut, hp, prunedForest, hpv, sizeForest]

/-- Top-level characterization of the mutable predicate iterator
started from the root: with the root's chain certified by f, the run
completes without fault and yields the pruned preorder of f under the
root's value when the root is admitted, nothing when it is rejected. -/
theorem mutRun_spec [DecidableEq T] (sg : SceneGraph T) (pred : T → Bool)
    (f : RForest T) (fuel : Nat)
    (henc : encForest sg (sg.root_children.map Children.first) f = true)
    (hfuel : sizeForest f ≤ fuel) :
    ∃ log, mutRun sg pred fuel (mutNew sg NodeIndex.Root) =
      .ok ((if pred sg.root then prunedForest pred sg.root f else []), log) := by
  cases hc : sg.root_children with
  | none =>
    rw [hc] at henc
    simp only [Option.map_none'] at henc
    have hf := encForest_none_elim henc
    subst hf
    refine ⟨[], ?_⟩
    simp [mutNew, hc, mutRun, prunedForest]
  | some ch =>
    rw [hc] at henc
    simp only [Option.map_some'] at henc
    have hrep : MutRep sg [⟨NodeIndex.Root, ch.first⟩] [f] :=
      MutRep.consRoot henc MutRep.nil
    obtain ⟨log, hrun⟩ := mutRun_rep sg pred fuel _ _ hrep (by
      simp only [sizeForests]; omega)
    refine ⟨log, ?_⟩
    have hnew : mutNew sg NodeIndex.Root = [⟨NodeIndex.Root, ch.first⟩] := by
      simp [mutNew, hc]
    rw [hnew, hrun]
    simp [stackOut, frameOut]

/-! ## Facts about pruned preorders -/

/-- Under the always-true predicate nothing is pruned: the pruned
preorder carries exactly the plain preorder's nodes, in order. -/
theorem prunedForest_true (f : RForest T) :
    ∀ pv : T, (prunedForest (fun _ => true) pv f).map
      (fun x => (NodeIndex.Branch x.1, x.2.2)) = preForest f := by
  induction f using RForest.strongInduction with
  | step f ih =>
    intro pv
    match f with
    | .nil => simp [prunedForest, preForest]
    | .cons (.mk i v cs) rest =>
      have h1 := ih cs (by simp only [sizeForest]; omega) v
      have h2 := ih rest (by simp only [sizeForest]; omega) pv
      simp [prunedForest, preForest, h1, h2]

/-- Every pair of a pruned preorder carries a parent value that itself
satisfies the predicate, provided the enclosing parent value does. -/
theorem prunedForest_parent_pred (pred : T → Bool) (f : RForest T) :
    ∀ pv : T, pred pv = true →
    ∀ x ∈ prunedForest pred pv f, pred x.2.1 = true := by
  induction f using RForest.strongInduction with
  | step f ih =>
    intro pv hpv x hx
    match f with
    | .nil => simp [prunedForest] at hx
    | .cons (.mk i v cs) rest =>
      by_cases hv : pred v = true
      · rw [prunedForest, if_pos hv] at hx
        rcases List.mem_cons.mp hx with hx0 | hx1
        · subst hx0; exact hpv
        · rcases List.mem_append.mp hx1 with hx2 | hx3
          · exact ih cs (by simp only [sizeForest]; omega) v hv x hx2
          · exact ih rest (by simp only [sizeForest]; omega) pv hpv x hx3
      · rw [prunedForest, if_neg hv] at hx
        exact ih rest (by simp only [sizeForest]; omega) pv hpv x hx

/-! ## Claims 3, 4, 5, 6, 9, 10 -/

/-- C3: if the predicate rejects the root value, the mutable predicate
iterator yields the empty sequence, for every container whatsoever
(regardless of tree shape, even a malformed arena), and its
construction (mutNew) is total, with no error result. -/
theorem claim3_root_rejected_empty (sg : SceneGraph T) (pred : T → Bool)
    (hroot : pred sg.root = false) (fuel : Nat) :
    ∃ log, mutRun sg pred (fuel+1) (mutNew sg NodeIndex.Root) =
      .ok ([], log) := by
  cases hc : sg.root_children with
  | none => exact ⟨[], by simp [mutNew, hc, mutRun]⟩
  | some ch =>
    refine ⟨[sg.root], ?_⟩
    simp [mutNew, hc, mutRun, hroot]

/-- Witness for C3 at the example graph with an all-rejecting
predicate. -/
theorem claim3_root_rejected_empty_witness :
    ∃ log, mutRun sgEx (fun _ => false) 4 (mutNew sgEx NodeIndex.Root) =
      .ok ([], log) :=
  claim3_root_rejected_empty sgEx (fun _ => false) rfl 3

/-- C4: on a certified (hence genuinely tree-shaped) container, the
mutable predicate iterator completes without ever taking get2_mut's
fatal equal-index branch: in every popped Branch-parent frame the
parent slot differs from the candidate slot, so the whole run is a
non-fault result. -/
theorem claim4_no_equal_indices [DecidableEq T] (sg : SceneGraph T)
    (pred : T → Bool) (f : RForest T) (fuel : Nat)
    (henc : encForest sg (sg.root_children.map Children.first) f = true)
    (hfuel : sizeForest f ≤ fuel) :
    mutRun sg pred fuel (mutNew sg NodeIndex.Root) ≠
      .error .equalIndices := by
  obtain ⟨log, hrun⟩ := mutRun_spec sg pred f fuel henc hfuel
  rw [hrun]
  simp

/-- Witness for C4 at the example graph. -/
theorem claim4_no_equal_indices_witness :
    mutRun sgEx (fun v => decide (v ≠ 2)) 3 (mutNew sgEx NodeIndex.Root) ≠
      .error .equalIndices :=
  claim4_no_equal_indices sgEx (fun v => decide (v ≠ 2)) fEx 3 (by decide)
    (by decide)

/-- C5: with the always-true predicate, the mutable predicate iterator
visits exactly the nodes the read iterator (started from the root)
visits, in the same order: mapping each yielded triple to the visited
node's identifier and value gives the read iterator's sequence. -/
theorem claim5_mut_matches_read [DecidableEq T] (sg : SceneGraph T)
    (f : RForest T) (fuel : Nat)
    (henc : encForest sg (sg.root_children.map Children.first) f = true)
    (hfuel : sizeForest f ≤ fuel) :
    ∃ s ro mo log,
      readNew sg NodeIndex.Root sg.root_children = .ok s ∧
      readRun sg fuel s = .ok ro ∧
      mutRun sg (fun _ => true) fuel (mutNew sg NodeIndex.Root) =
        .ok (mo, log) ∧
      mo.map (fun x => (NodeIndex.Branch x.1, x.2.2)) = ro := by
  obtain ⟨s, hnew, hrun⟩ :=
    readRun_spec sg NodeIndex.Root sg.root_children f fuel henc hfuel
  obtain ⟨log, hmrun⟩ := mutRun_spec sg (fun _ => true) f fuel henc hfuel
  refine ⟨s, preForest f, _, log, hnew, hrun, hmrun, ?_⟩
  simp [prunedForest_true]

/-- Witness for C5 at the example graph. -/
theorem claim5_mut_matches_read_witness :
    ∃ s ro mo log,
      readNew sgEx NodeIndex.Root sgEx.root_children = .ok s ∧
      readRun sgEx 3 s = .ok ro ∧
      mutRun sgEx (fun _ => true) 3 (mutNew sgEx NodeIndex.Root) =
        .ok (mo, log) ∧
      mo.map (fun x => (NodeIndex.Branch x.1, x.2.2)) = ro :=
  claim5_mut_matches_read sgEx fEx 3 (by decide) (by decide)

/-- C6: the root value is tested lazily.  First, when the root has no
children the whole run never invokes the predicate at all (the
invocation log is empty); second, whenever an advance pops a frame
whose parent identifier is Root and completes, the very first predicate
invocation of that advance is on the root value (the log of the
completed run starts with it). -/
theorem claim6_lazy_root_check (sg : SceneGraph T) (pred : T → Bool) :
    (sg.root_children = none →
      ∀ fuel, mutRun sg pred fuel (mutNew sg NodeIndex.Root) =
        .ok ([], [])) ∧
    (∀ (c : Slot) (rest : List MutStackState) (fuel : Nat)
        (out : List (Slot × T × T)) (log : List T),
      mutRun sg pred (fuel+1) (⟨NodeIndex.Root, c⟩ :: rest) = .ok (out, log) →
      ∃ l, log = sg.root :: l) := by
  constructor
  · intro hc fuel
    simp [mutNew, hc, mutRun]
  · intro c rest fuel out log hrun
    cases hroot : pred sg.root with
    | false =>
      simp only [mutRun, hroot, Bool.false_eq_true, if_false] at hrun
      cases hrec : mutRun sg pred fuel rest with
      | error e => rw [hrec] at hrun; simp at hrun
      | ok p =>
        rw [hrec] at hrun
        obtain ⟨o, l⟩ := p
        simp only [Except.ok.injEq, Prod.mk.injEq] at hrun
        exact ⟨l, hrun.2.symm⟩
    | true =>
      cases hg : sg.get c with
      | none =>
        simp [mutRun, hroot, hg] at hrun
      | some child =>
        cases hpv : pred child.value with
        | true =>
          simp only [mutRun, hroot, hg, hpv, if_true] at hrun
          cases hrec : mutRun sg pred fuel
              (match child.children with
                | some ch => ⟨NodeIndex.Branch c, ch.first⟩ ::
                    (match child.next_sibling with
                      | some sib => ⟨NodeIndex.Root, sib⟩ :: rest
                      | none => rest)
                | none =>
                    (match child.next_sibling with
                      | some sib => ⟨NodeIndex.Root, sib⟩ :: rest
                      | none => rest)) with
          | error e => rw [hrec] at hrun; simp at hrun
          | ok p =>
            rw [hrec] at hrun
            obtain ⟨o, l⟩ := p
            simp only [Except.ok.injEq, Prod.mk.injEq] at hrun
            exact ⟨child.value :: l, hrun.2.symm⟩
        | false =>
          simp only [mutRun, hroot, hg, hpv, Bool.false_eq_true, if_true,
            if_false] at hrun
          cases hrec : mutRun sg pred fuel
              (match child.next_sibling with
                | some sib => ⟨NodeIndex.Root, sib⟩ :: rest
                | none => rest) with
          | error e => rw [hrec] at hrun; simp at hrun
          | ok p =>
            rw [hrec] at hrun
            obtain ⟨o, l⟩ := p
            simp only [Except.ok.injEq, Prod.mk.injEq] at hrun
            exact ⟨child.value :: l, hrun.2.symm⟩

/-- Witness for C6: a childless container never consults the
predicate. -/
theorem claim6_lazy_root_check_witness :
    mutRun (SceneGraph.mk 7 none ([] : List (Option (Node Nat))))
      (fun _ => false) 5
      (mutNew (SceneGraph.mk 7 none []) NodeIndex.Root) = .ok ([], []) :=
  (claim6_lazy_root_check (SceneGraph.mk 7 none []) (fun _ => false)).1 rfl 5

/-- C9: every pair the mutable predicate iterator yields has a parent
value satisfying the predicate: a Branch parent was admitted before its
children were scheduled, and the root parent is checked when its frame
is popped. -/
theorem claim9_parent_admitted [DecidableEq T] (sg : SceneGraph T)
    (pred : T → Bool) (f : RForest T) (fuel : Nat)
    (henc : encForest sg (sg.root_children.map Children.first) f = true)
    (hfuel : sizeForest f ≤ fuel) :
    ∃ out log, mutRun sg pred fuel (mutNew sg NodeIndex.Root) =
        .ok (out, log) ∧
      ∀ x ∈ out, pred x.2.1 = true := by
  obtain ⟨log, hrun⟩ := mutRun_spec sg pred f fuel henc hfuel
  refine ⟨_, log, hrun, ?_⟩
  intro x hx
  by_cases hroot : pred sg.root = true
  · rw [if_pos hroot] at hx
    exact prunedForest_parent_pred pred f sg.root hroot x hx
  · rw [if_neg hroot] at hx
    simp at hx

/-- Witness for C9 at the example graph. -/
theorem claim9_parent_admitted_witness :
    ∃ out log, mutRun sgEx (fun v => decide (v ≠ 2)) 3
        (mutNew sgEx NodeIndex.Root) = .ok (out, log) ∧
      ∀ x ∈ out, (fun v => decide (v ≠ 2)) x.2.1 = true :=
  claim9_parent_admitted sgEx (fun v => decide (v ≠ 2)) fEx 3 (by decide)
    (by decide)

/-- C10: when the chains reachable from the read start node and from
the root are certified (every reachable slot resolves), neither
iterator ever hits a failing partial lookup: the read iterator's
bracket indexing at construction and advance, and the mutable
iterator's unwraps of get_mut and get2_mut, all succeed, so both runs
return non-fault results. -/
theorem claim10_no_lookup_failure [DecidableEq T] (sg : SceneGraph T)
    (pred : T → Bool) (start : NodeIndex) (f g : RForest T) (fuel : Nat)
    (hencf : encForest sg ((childrenOf sg start).map Children.first) f = true)
    (hencg : encForest sg (sg.root_children.map Children.first) g = true)
    (hf : sizeForest f ≤ fuel) (hg : sizeForest g ≤ fuel) :
    (∃ s out, readNew sg start (childrenOf sg start) = .ok s ∧
      readRun sg fuel s = .ok out) ∧
    (∃ out log, mutRun sg pred fuel (mutNew sg NodeIndex.Root) =
      .ok (out, log)) := by
  constructor
  · obtain ⟨s, hnew, hrun⟩ :=
      readRun_spec sg start (childrenOf sg start) f fuel hencf hf
    exact ⟨s, preForest f, hnew, hrun⟩
  · obtain ⟨log, hrun⟩ := mutRun_spec sg pred g fuel hencg hg
    exact ⟨_, log, hrun⟩

/-- Witness for C10 at the example graph, reading from slot 1. -/
theorem claim10_no_lookup_failure_witness :
    (∃ s out, readNew sgEx (NodeIndex.Branch 1)
        (childrenOf sgEx (NodeIndex.Branch 1)) = .ok s ∧
      readRun sgEx 3 s = .ok out) ∧
    (∃ out log, mutRun sgEx (fun v => decide (v ≠ 2)) 3
      (mutNew sgEx NodeIndex.Root) = .ok (out, log)) :=
  claim10_no_lookup_failure sgEx (fun v => decide (v ≠ 2))
    (NodeIndex.Branch 1)
    (RForest.cons (RTree.mk 2 3 RForest.nil) RForest.nil) fEx 3
    (by decide) (by decide) (by decide) (by decide)

/-! ## Claim 2: pruning a rejected subtree equals deleting it -/

/-- A found subtree's root slot lies in the forest, and all the
subtree's child slots do too. -/
theorem subForestAt_mem (x : Slot) (f : RForest T) :
    ∀ (v : T) (cs : RForest T), subForestAt x f = some (v, cs) →
    x ∈ slotsForest f ∧ ∀ s ∈ slotsForest cs, s ∈ slotsForest f := by
  induction f using RForest.strongInduction with
  | step f ih =>
    intro v cs hsub
    match f with
    | .nil => simp [subForestAt] at hsub
    | .cons (.mk i v' cs') rest =>
      rw [subForestAt] at hsub
      by_cases hix : i = x
      · rw [if_pos hix] at hsub
        simp only [Option.some.injEq, Prod.mk.injEq] at hsub
        obtain ⟨hv, hcs⟩ := hsub
        subst hcs
        constructor
        · rw [slotsForest, ← hix]
          exact List.mem_cons_self _ _
        · intro s hs
          rw [slotsForest, List.mem_cons, List.mem_append]
          exact Or.inr (Or.inl hs)
      · rw [if_neg hix] at hsub
        cases hs2 : subForestAt x cs' with
        | some r =>
          rw [hs2] at hsub
          cases hsub
          obtain ⟨hx1, hx2⟩ := ih cs'
            (by simp only [sizeForest]; omega) v cs hs2
          constructor
          · rw [slotsForest, List.mem_cons, List.mem_append]
            exact Or.inr (Or.inl hx1)
          · intro s hs
            rw [slotsForest, List.mem_cons, List.mem_append]
            exact Or.inr (Or.inl (hx2 s hs))
        | none =>
          rw [hs2] at hsub
          obtain ⟨hx1, hx2⟩ := ih rest
            (by simp only [sizeForest]; omega) v cs hsub
          constructor
          · rw [slotsForest, List.mem_cons, List.mem_append]
            exact Or.inr (Or.inr hx1)
          · intro s hs
            rw [slotsForest, List.mem_cons, List.mem_append]
            exact Or.inr (Or.inr (hx2 s hs))

/-- Erasing a slot that does not occur leaves the forest unchanged. -/
theorem eraseForest_not_mem (x : Slot) (f : RForest T) :
    x ∉ slotsForest f → eraseForest x f = f := by
  induction f using RForest.strongInduction with
  | step f ih =>
    intro hx
    match f with
    | .nil => rfl
    | .cons (.mk i v cs) rest =>
      rw [slotsForest] at hx
      simp only [List.mem_cons, List.mem_append, not_or] at hx
      obtain ⟨hxi, hxcs, hxrest⟩ := hx
      rw [eraseForest, if_neg (fun h => hxi (h.symm)),
        ih cs (by simp only [sizeForest]; omega) hxcs,
        ih rest (by simp only [sizeForest]; omega) hxrest]

/-- Every slot yielded by a pruned preorder is a slot of the forest. -/
theorem prunedForest_slots (pred : T → Bool) (f : RForest T) :
    ∀ (pv : T) (y : Slot),
    y ∈ (prunedForest pred pv f).map (fun z => z.1) →
    y ∈ slotsForest f := by
  induction f using RForest.strongInduction with
  | step f ih =>
    intro pv y hy
    match f with
    | .nil => simp [prunedForest] at hy
    | .cons (.mk i v cs) rest =>
      rw [slotsForest, List.mem_cons, List.mem_append]
      by_cases hv : pred v = true
      · rw [prunedForest, if_pos hv] at hy
        simp only [List.map_cons, List.map_append, List.mem_cons,
          List.mem_append] at hy
        rcases hy with hy0 | hy1 | hy2
        · exact Or.inl hy0
        · exact Or.inr (Or.inl (ih cs
            (by simp only [sizeForest]; omega) v y hy1))
        · exact Or.inr (Or.inr (ih rest
            (by simp only [sizeForest]; omega) pv y hy2))
      · rw [prunedForest, if_neg hv] at hy
        exact Or.inr (Or.inr (ih rest
          (by simp only [sizeForest]; omega) pv y hy))

/-- On a duplicate-free forest, pruning under a predicate that rejects
the subtree found at slot x gives the same sequence as first deleting
that subtree outright: the rejected subtree's siblings are traversed
exactly as if it were absent. -/
theorem prunedForest_erase (pred : T → Bool) (x : Slot) (f : RForest T) :
    ∀ (v : T) (cs : RForest T), (slotsForest f).Nodup →
    subForestAt x f = some (v, cs) → pred v = false →
    ∀ pv, prunedForest pred pv (eraseForest x f) =
      prunedForest pred pv f := by
  induction f using RForest.strongInduction with
  | step f ih =>
    intro v cs hnd hsub hrej pv
    match f with
    | .nil => simp [subForestAt] at hsub
    | .cons (.mk i v' cs') rest =>
      rw [slotsForest] at hnd
      obtain ⟨hnotin_i, hnd_tail⟩ := List.nodup_cons.mp hnd
      obtain ⟨hnd1, hnd2, hdisj⟩ := List.nodup_append.mp hnd_tail
      rw [subForestAt] at hsub
      by_cases hix : i = x
      · rw [if_pos hix] at hsub
        simp only [Option.some.injEq, Prod.mk.injEq] at hsub
        obtain ⟨hv, hcs⟩ := hsub
        have hxrest : x ∉ slotsForest rest := fun hmem =>
          hnotin_i (hix ▸ List.mem_append.mpr (Or.inr hmem))
        have hvf : ¬ pred v' = true := by rw [hv, hrej]; simp
        rw [eraseForest, if_pos hix, eraseForest_not_mem x rest hxrest,
          prunedForest, if_neg hvf]
      · rw [if_neg hix] at hsub
        cases hs2 : subForestAt x cs' with
        | some r =>
          rw [hs2] at hsub
          cases hsub
          have hxcs' : x ∈ slotsForest cs' :=
            (subForestAt_mem x cs' v cs hs2).1
          have hxrest : x ∉ slotsForest rest := fun hmem =>
            hdisj hxcs' hmem
          have hrec := ih cs' (by simp only [sizeForest]; omega)
            v cs hnd1 hs2 hrej
          rw [eraseForest, if_neg hix, eraseForest_not_mem x rest hxrest]
          simp only [prunedForest]
          by_cases hv' : pred v' = true
          · rw [if_pos hv', if_pos hv', hrec v']
          · rw [if_neg hv', if_neg hv']
        | none =>
          rw [hs2] at hsub
          have hxrest : x ∈ slotsForest rest :=
            (subForestAt_mem x rest v cs hsub).1
          have hxcs' : x ∉ slotsForest cs' := fun hmem =>
            hdisj hmem hxrest
          have hrec := ih rest (by simp only [sizeForest]; omega)
            v cs hnd2 hsub hrej
          rw [eraseForest, if_neg hix, eraseForest_not_mem x cs' hxcs']
          simp only [prunedForest]
          by_cases hv' : pred v' = true
          · rw [if_pos hv', if_pos hv', hrec pv]
          · rw [if_neg hv', if_neg hv', hrec pv]

/-- On a duplicate-free forest, no slot of a rejected subtree (its root
or any descendant) survives into the pruned preorder. -/
theorem prunedForest_skip (pred : T → Bool) (x : Slot) (f : RForest T) :
    ∀ (v : T) (cs : RForest T), (slotsForest f).Nodup →
    subForestAt x f = some (v, cs) → pred v = false →
    ∀ (pv : T) (s : Slot), (s = x ∨ s ∈ slotsForest cs) →
    s ∉ (prunedForest pred pv f).map (fun z => z.1) := by
  induction f using RForest.strongInduction with
  | step f ih =>
    intro v cs hnd hsub hrej pv s hs hmem
    match f with
    | .nil => simp [subForestAt] at hsub
    | .cons (.mk i v' cs') rest =>
      rw [slotsForest] at hnd
      obtain ⟨hnotin_i, hnd_tail⟩ := List.nodup_cons.mp hnd
      obtain ⟨hnd1, hnd2, hdisj⟩ := List.nodup_append.mp hnd_tail
      rw [subForestAt] at hsub
      by_cases hix : i = x
      · rw [if_pos hix] at hsub
        simp only [Option.some.injEq, Prod.mk.injEq] at hsub
        obtain ⟨hv, hcs⟩ := hsub
        have hvf : ¬ pred v' = true := by rw [hv, hrej]; simp
        rw [prunedForest, if_neg hvf] at hmem
        have hsrest := prunedForest_slots pred rest pv s hmem
        rcases hs with hsx | hscs
        · subst hsx
          exact hnotin_i (hix ▸ List.mem_append.mpr (Or.inr hsrest))
        · rw [← hcs] at hscs
          exact hdisj hscs hsrest
      · rw [if_neg hix] at hsub
        cases hs2 : subForestAt x cs' with
        | some r =>
          rw [hs2] at hsub
          cases hsub
          obtain ⟨hxcs', hsubslots⟩ := subForestAt_mem x cs' v cs hs2
          have hscs' : s ∈ slotsForest cs' := by
            rcases hs with hsx | hscs
            · subst hsx; exact hxcs'
            · exact hsubslots s hscs
          by_cases hv' : pred v' = true
          · rw [prunedForest, if_pos hv'] at hmem
            simp only [List.map_cons, List.map_append, List.mem_cons,
              List.mem_append] at hmem
            rcases hmem with h0 | h1 | h2
            · exact hnotin_i (h0 ▸ List.mem_append.mpr (Or.inl hscs'))
            · exact ih cs' (by simp only [sizeForest]; omega)
                v cs hnd1 hs2 hrej v' s hs h1
            · exact hdisj hscs' (prunedForest_slots pred rest pv s h2)
          · rw [prunedForest, if_neg hv'] at hmem
            exact hdisj hscs' (prunedForest_slots pred rest pv s hmem)
        | none =>
          rw [hs2] at hsub
          obtain ⟨hxrest, hsubslots⟩ := subForestAt_mem x rest v cs hsub
          have hsrest : s ∈ slotsForest rest := by
            rcases hs with hsx | hscs
            · subst hsx; exact hxrest
            · exact hsubslots s hscs
          by_cases hv' : pred v' = true
          · rw [prunedForest, if_pos hv'] at hmem
            simp only [List.map_cons, List.map_append, List.mem_cons,
              List.mem_append] at hmem
            rcases hmem with h0 | h1 | h2
            · exact hnotin_i (h0 ▸ List.mem_append.mpr (Or.inr hsrest))
            · exact hdisj (prunedForest_slots pred cs' v' s h1) hsrest
            · exact ih rest (by simp only [sizeForest]; omega)
                v cs hnd2 hsub hrej pv s hs h2
          · rw [prunedForest, if_neg hv'] at hmem
            exact ih rest (by simp only [sizeForest]; omega)
              v cs hnd2 hsub hrej pv s hs hmem

/-- C2: if the predicate rejects the (non-root) node found at slot x,
the mutable predicate iterator yields neither that node nor any of its
descendants, and the remainder of the yield sequence is exactly the
pruned traversal of the tree with the rejected subtree deleted: the
rejected node's siblings and their subtrees are unaffected. -/
theorem claim2_subtree_pruned [DecidableEq T] (sg : SceneGraph T)
    (pred : T → Bool) (f : RForest T) (x : Slot) (v : T) (cs : RForest T)
    (fuel : Nat)
    (henc : encForest sg (sg.root_children.map Children.first) f = true)
    (hnd : (slotsForest f).Nodup)
    (hsub : subForestAt x f = some (v, cs))
    (hrej : pred v = false)
    (hfuel : sizeForest f ≤ fuel) :
    ∃ out log, mutRun sg pred fuel (mutNew sg NodeIndex.Root) =
        .ok (out, log) ∧
      (∀ s : Slot, (s = x ∨ s ∈ slotsForest cs) →
        s ∉ out.map (fun z => z.1)) ∧
      out = (if pred sg.root then
        prunedForest pred sg.root (eraseForest x f) else []) := by
  obtain ⟨log, hrun⟩ := mutRun_spec sg pred f fuel henc hfuel
  refine ⟨_, log, hrun, ?_, ?_⟩
  · intro s hs
    by_cases hroot : pred sg.root = true
    · rw [if_pos hroot]
      exact prunedForest_skip pred x f v cs hnd hsub hrej sg.root s hs
    · rw [if_neg hroot]
      simp
  · by_cases hroot : pred sg.root = true
    · rw [if_pos hroot, if_pos hroot,
        prunedForest_erase pred x f v cs hnd hsub hrej sg.root]
    · rw [if_neg hroot, if_neg hroot]

/-- Witness for C2 at the example graph: rejecting the node of value 2
(slot 1) prunes it and its child (slot 2) while keeping its sibling. -/
theorem claim2_subtree_pruned_witness :
    ∃ out log, mutRun sgEx (fun w => decide (w ≠ 2)) 3
        (mutNew sgEx NodeIndex.Root) = .ok (out, log) ∧
      (∀ s : Slot, (s = 1 ∨ s ∈ slotsForest
          (RForest.cons (RTree.mk 2 3 RForest.nil) RForest.nil)) →
        s ∉ out.map (fun z => z.1)) ∧
      out = (if (fun w => decide (w ≠ 2)) sgEx.root then
        prunedForest (fun w => decide (w ≠ 2)) sgEx.root
          (eraseForest 1 fEx) else []) :=
  claim2_subtree_pruned sgEx (fun w => decide (w ≠ 2)) fEx 1 2
    (RForest.cons (RTree.mk 2 3 RForest.nil) RForest.nil) 3
    (by decide) (by decide) rfl rfl (by decide)

/-! ## Claims 7 and 8 -/

/-- C7: starting a read traversal with a Branch identifier whose slot
no longer resolves fails with NodeNotFound before anything is yielded
(construction returns the error and no iterator state exists), while
starting with the Root identifier can never produce NodeNotFound. -/
theorem claim7_node_not_found (T : Type) :
    (∀ (sg : SceneGraph T) (i : Slot), sg.get i = none →
      iter_from_node_with_index sg (NodeIndex.Branch i) =
        .error .nodeNotFound) ∧
    (∀ sg : SceneGraph T,
      iter_from_node_with_index sg NodeIndex.Root ≠
        .error .nodeNotFound) := by
  constructor
  · intro sg i hg
    simp [iter_from_node_with_index, hg]
  · intro sg
    simp only [iter_from_node_with_index]
    cases h : readNew sg NodeIndex.Root sg.root_children <;> simp

/-- Witness for C7: slot 5 does not resolve in the example arena. -/
theorem claim7_node_not_found_witness :
    iter_from_node_with_index sgEx (NodeIndex.Branch 5) =
      .error .nodeNotFound :=
  (claim7_node_not_found Nat).1 sgEx 5 rfl

/-- C8: iteration is deterministic and repeatable with no hidden state:
two independently constructed and exhausted iterators of the same kind
over the same unmodified container produce identical results — the read
runs agree exactly, and the two mutable runs yield one and the same
sequence. -/
theorem claim8_repeatable [DecidableEq T] (sg : SceneGraph T)
    (pred : T → Bool) (f : RForest T) (fuel1 fuel2 : Nat)
    (henc : encForest sg (sg.root_children.map Children.first) f = true)
    (h1 : sizeForest f ≤ fuel1) (h2 : sizeForest f ≤ fuel2) :
    ∃ s, readNew sg NodeIndex.Root sg.root_children = .ok s ∧
      readRun sg fuel1 s = readRun sg fuel2 s ∧
      ∃ out log1 log2,
        mutRun sg pred fuel1 (mutNew sg NodeIndex.Root) = .ok (out, log1) ∧
        mutRun sg pred fuel2 (mutNew sg NodeIndex.Root) =
          .ok (out, log2) := by
  obtain ⟨s, hnew, hrun1⟩ :=
    readRun_spec sg NodeIndex.Root sg.root_children f fuel1 henc h1
  obtain ⟨s2, hnew2, hrun2⟩ :=
    readRun_spec sg NodeIndex.Root sg.root_children f fuel2 henc h2
  rw [hnew] at hnew2
  cases hnew2
  obtain ⟨log1, hm1⟩ := mutRun_spec sg pred f fuel1 henc h1
  obtain ⟨log2, hm2⟩ := mutRun_spec sg pred f fuel2 henc h2
  exact ⟨s, hnew, by rw [hrun1, hrun2], _, log1, log2, hm1, hm2⟩

/-- Witness for C8 at the example graph with two different fuel
budgets. -/
theorem claim8_repeatable_witness :
    ∃ s, readNew sgEx NodeIndex.Root sgEx.root_children = .ok s ∧
      readRun sgEx 3 s = readRun sgEx 9 s ∧
      ∃ out log1 log2,
        mutRun sgEx (fun w => decide (w ≠ 2)) 3
          (mutNew sgEx NodeIndex.Root) = .ok (out, log1) ∧
        mutRun sgEx (fun w => decide (w ≠ 2)) 9
          (mutNew sgEx NodeIndex.Root) = .ok (out, log2) :=
  claim8_repeatable sgEx (fun w => decide (w ≠ 2)) fEx 3 9 (by decide)
    (by decide) (by decide)

end Scenegraph
